import Mathlib

set_option maxHeartbeats 1000000

namespace Csv2Graph

/-- A pandas cell value as it flows through convert_to_graph after the
astype/apply stages: NaN, a string, or a list of strings (as produced by
the mention and hashtag extractors). -/
inductive Val where
  | na : Val
  | str : String → Val
  | lst : List String → Val
deriving DecidableEq, Repr

def Val.isLst : Val → Bool
  | .lst _ => true
  | _ => false

/-- Python x.lower(): lower-case every character. -/
def pyLower (x : String) : String :=
  String.mk (x.data.map Char.toLower)

/-- Python str.split() with no separator argument: split on runs of
whitespace, discarding empty tokens. -/
def splitWsAux : List Char → List Char → List String
  | [], acc => if acc = [] then [] else [String.mk acc.reverse]
  | c :: cs, acc =>
    if c.isWhitespace then
      if acc = [] then splitWsAux cs [] else String.mk acc.reverse :: splitWsAux cs []
    else splitWsAux cs (c :: acc)

def pySplitWs (x : String) : List String :=
  splitWsAux x.data []

/-- Python t.startswith of an at-sign. -/
def startsWithAt (t : String) : Bool :=
  match t.data with
  | [] => false
  | c :: _ => c = '@'

/-- Python t.startswith of a hash-sign. -/
def startsWithHash (t : String) : Bool :=
  match t.data with
  | [] => false
  | c :: _ => c = '#'

/-- Python t.lstrip of at-signs: removes every leading at-sign character. -/
def lstripAt (t : String) : String :=
  String.mk (t.data.dropWhile (fun c => c = '@'))

/-- Python len(t). -/
def pyLen (t : String) : Nat := t.data.length

/-- Embedding of find_mentions (src/csv2graph.py lines 126-134): keep the
whitespace tokens of the lower-cased input that start with an at-sign, then
keep those of total length greater than one and strip their leading
at-signs. -/
def find_mentions (x : String) : List String :=
  let mentions := (pySplitWs (pyLower x)).filter (fun t => startsWithAt t)
  (mentions.filter (fun m => 1 < pyLen m)).map (fun m => lstripAt m)

/-- Embedding of find_hashtags (src/csv2graph.py lines 137-145). -/
def find_hashtags (x : String) : List String :=
  let hashtags := (pySplitWs (pyLower x)).filter (fun t => startsWithHash t)
  hashtags.filter (fun h => 2 < pyLen h)

/-- pandas astype(str) on a CSV cell: a missing value (NaN) becomes the
literal string form of NaN, a present value stays itself. -/
def astypeStr : Option String → String
  | none => "nan"
  | some s => s

/-- A raw CSV cell lifted to a value: missing stays the NaN marker. -/
def ofCell : Option String → Val
  | none => .na
  | some s => .str s

/-- One raw CSV record, restricted to the columns convert_to_graph reads:
the source column, the target columns (in order), the node-index column and
the node-attribute columns (in order). A missing field is none. -/
structure RawRow where
  src : Option String
  tgts : List (Option String)
  idx : Option String
  attrs : List (Option String)
deriving DecidableEq, Repr

/-- A record after the astype and map stages (src/csv2graph.py lines
79-80): source and target cells hold values, the index and attribute
columns are untouched raw cells. -/
structure Row where
  src : Val
  tgts : List Val
  idx : Val
  attrs : List Val
deriving DecidableEq, Repr

/-- The keyword arguments of convert_to_graph that drive the graph
construction, with the default values of its signature (src/csv2graph.py
lines 47-64). node_index_given models whether node_index is passed
(default None, in which case the source column is the attribute index). -/
structure Config where
  source_map : String → Val := fun s => Val.str s
  target_map : String → Val := fun s => Val.str s
  node_index_given : Bool := false
  directed : Bool := true
  explode : Bool := false
  self_loops : Bool := true
  weighted : Bool := true

/-- The values the argparse command-line front end passes for those same
arguments when no optional flag is given (src/csv2graph.py lines 162-236):
store_false actions default to true and store_true actions to false. -/
def cliDefaultConfig : Config :=
  { explode := true, self_loops := false }

/-- Lines 79-80: astype(str) then the configured map on the source column
and on every target column; other columns pass through as raw cells. -/
def applyMaps (smap tmap : String → Val) (r : RawRow) : Row :=
  { src := smap (astypeStr r.src)
    tgts := r.tgts.map (fun c => tmap (astypeStr c))
    idx := ofCell r.idx
    attrs := r.attrs.map ofCell }

/-- pandas df.explode on one cell: a scalar or NaN stays a single row, a
non-empty list becomes one row per element, an empty list becomes NaN. -/
def explodeVal : Val → List Val
  | .na => [.na]
  | .str s => [.str s]
  | .lst l => if l = [] then [.na] else l.map Val.str

/-- Explode the source column (one pass of the loop at lines 82-84). -/
def explodeSrc (rows : List Row) : List Row :=
  rows.flatMap (fun r => (explodeVal r.src).map (fun v => { r with src := v }))

/-- Explode the i-th target column. -/
def explodeTgt (i : Nat) (rows : List Row) : List Row :=
  rows.flatMap (fun r =>
    (explodeVal (r.tgts.getD i Val.na)).map (fun v => { r with tgts := r.tgts.set i v }))

/-- Lines 82-84: explode the source column, then each target column in
listed order. -/
def explodeAll (rows : List Row) (nT : Nat) : List Row :=
  (List.range nT).foldl (fun rs i => explodeTgt i rs) (explodeSrc rows)

/-- The normalized data frame: maps applied, then exploded when the
explode flag is set. -/
def normalizeRows (cfg : Config) (rows : List RawRow) (nT : Nat) : List Row :=
  if cfg.explode then explodeAll (rows.map (applyMaps cfg.source_map cfg.target_map)) nT
  else rows.map (applyMaps cfg.source_map cfg.target_map)

/-- Line 87: the candidate (source, target) pairs of one target column,
dropping the rows whose target cell is NaN (dropna on the target column
only; the source cell is not examined). -/
def colPairs (rows : List Row) (i : Nat) : List (Val × Val) :=
  rows.filterMap (fun r =>
    if r.tgts.getD i Val.na = Val.na then none else some (r.src, r.tgts.getD i Val.na))

/-- Lines 86-89: the edge frame E, concatenating the candidate pairs of
every target column in order. -/
def buildE (rows : List Row) (nT : Nat) : List (Val × Val) :=
  (List.range nT).flatMap (colPairs rows)

/-- pandas inequality of two cells as used by the self-loop filter at line
92: NaN compares unequal to everything, including NaN itself. -/
def valNeq (a b : Val) : Bool :=
  if a = Val.na ∧ b = Val.na then true else decide (a ≠ b)

/-- Lines 91-92: drop the pairs with equal endpoints unless self-loops are
allowed. -/
def filteredE (cfg : Config) (rows : List Row) (nT : Nat) : List (Val × Val) :=
  if cfg.self_loops then buildE rows nT
  else (buildE rows nT).filter (fun p => valNeq p.1 p.2)

/-- The multiplicity of one exact ordered pair in E, as produced by
E.value_counts() at line 95. -/
def countPair (E : List (Val × Val)) (p : Val × Val) : Nat :=
  (E.filter (fun q => decide (q = p))).length

/-- Line 96: the weight looked up for one row of E. value_counts drops the
rows containing NaN, so the lookup for a pair with a NaN component raises
a KeyError, modelled as none. -/
def rowWeight (E : List (Val × Val)) (p : Val × Val) : Option Nat :=
  if p.1 = Val.na ∨ p.2 = Val.na then none else some (countPair E p)

/-- The weight column comprehension of line 96 over a list of rows of E;
none when any lookup raises. -/
def weightedRowsAux (E : List (Val × Val)) : List (Val × Val) → Option (List ((Val × Val) × Nat))
  | [] => some []
  | p :: rest =>
    match rowWeight E p, weightedRowsAux E rest with
    | some w, some ws => some ((p, w) :: ws)
    | _, _ => none

def weightedRows (E : List (Val × Val)) : Option (List ((Val × Val) × Nat)) :=
  weightedRowsAux E E

/-- The exceptions the pandas calls inside convert_to_graph can raise:
pd.concat of an empty list of frames (no target columns), value_counts on
unhashable list cells, and the weight lookup on a NaN key. -/
inductive PandasError where
  | noObjectsToConcatenate
  | typeErrorUnhashable
  | keyError
deriving DecidableEq, Repr

/-- Lines 94-96: attach a weight to every row of E when weighting is
enabled; otherwise the rows carry no weight. -/
def edgeRowsOf (cfg : Config) (E : List (Val × Val)) :
    Except PandasError (List ((Val × Val) × Option Nat)) :=
  if cfg.weighted then
    if E.any (fun p => p.1.isLst || p.2.isLst) then .error .typeErrorUnhashable
    else
      match weightedRows E with
      | some W => .ok (W.map (fun r => (r.1, some r.2)))
      | none => .error .keyError
  else .ok (E.map (fun p => (p, (none : Option Nat))))

/-- One edge of the resulting networkx graph: its stored endpoint pair and
its optional weight attribute. -/
structure Edge where
  src : Val
  tgt : Val
  weight : Option Nat
deriving DecidableEq, Repr

def edgePair (e : Edge) : Val × Val := (e.src, e.tgt)

/-- Whether two endpoint pairs name the same networkx edge: equality for a
DiGraph, equality up to orientation for an undirected Graph. -/
def keyMatch (d : Bool) (p q : Val × Val) : Bool :=
  if d then decide (p = q) else decide (p = q ∨ p = (q.2, q.1))

/-- networkx add_edge for one row of the edge list: update the weight of
the existing edge with the same key, else append a new edge stored in the
row's orientation. -/
def addEdge (d : Bool) (es : List Edge) (p : Val × Val) (w : Option Nat) : List Edge :=
  if es.any (fun e => keyMatch d (edgePair e) p) then
    es.map (fun e => if keyMatch d (edgePair e) p then { e with weight := w } else e)
  else
    es ++ [{ src := p.1, tgt := p.2, weight := w }]

/-- Lines 98-106: from_pandas_edgelist adds every row of E in order. -/
def buildGraphEdges (d : Bool) (rows : List ((Val × Val) × Option Nat)) : List Edge :=
  rows.foldl (fun es r => addEdge d es r.1 r.2) []

def addNode (ns : List Val) (v : Val) : List Val :=
  if v ∈ ns then ns else ns ++ [v]

/-- The node set networkx accumulates while adding the rows of E: both
endpoints of every row, first occurrence order. -/
def graphNodesOf (pairs : List (Val × Val)) : List Val :=
  pairs.foldl (fun ns p => addNode (addNode ns p.1) p.2) []

/-- pandas Series.drop_duplicates at line 113: keep a row only when its
VALUE has not occurred in an earlier row; the index plays no part. -/
def dropDupValues : List (Val × Val) → List Val → List (Val × Val)
  | [], _ => []
  | kv :: rest, seen =>
    if kv.2 ∈ seen then dropDupValues rest seen
    else kv :: dropDupValues rest (kv.2 :: seen)

/-- Python dict update: replace the value at an existing key, else append
the new binding. -/
def insertOrReplace : List (Val × Val) → Val → Val → List (Val × Val)
  | [], k, v => [(k, v)]
  | kv :: rest, k, v => if kv.1 = k then (k, v) :: rest else kv :: insertOrReplace rest k v

/-- Series.to_dict at line 113: build the dict binding by binding in row
order, later bindings of the same key overwriting earlier ones. -/
def toDict (l : List (Val × Val)) : List (Val × Val) :=
  l.foldl (fun d kv => insertOrReplace d kv.1 kv.2) []

def dictLookup (d : List (Val × Val)) (k : Val) : Option Val :=
  match d with
  | [] => none
  | kv :: rest => if kv.1 = k then some kv.2 else dictLookup rest k

/-- Lines 111-113: the node-attribute dict for one attribute column, from
the (index value, attribute value) rows. -/
def nodeAttrMap (pairs : List (Val × Val)) : List (Val × Val) :=
  toDict (dropDupValues pairs [])

/-- The index cell used at line 111: the node_index column when given,
else the (mapped) source column. -/
def idxVal (cfg : Config) (r : Row) : Val :=
  if cfg.node_index_given then r.idx else r.src

/-- The (index value, attribute value) rows of the i-th attribute column,
taken from the normalized (post-explosion) frame. -/
def attrPairs (cfg : Config) (rows : List Row) (i : Nat) : List (Val × Val) :=
  rows.map (fun r => (idxVal cfg r, r.attrs.getD i Val.na))

/-- The in-memory graph convert_to_graph returns: node list, edge list,
and one attribute dict per node-attribute column, restricted by
set_node_attributes to keys that are nodes of the graph. -/
structure Graph where
  nodes : List Val
  edges : List Edge
  nodeAttrs : List (List (Val × Val))
deriving DecidableEq, Repr

/-- The record-to-graph engine of convert_to_graph (src/csv2graph.py
lines 47-123), from the materialized records to the networkx graph, with
nT target columns and nA node-attribute columns. -/
def convertToGraph (cfg : Config) (nT nA : Nat) (rows : List RawRow) :
    Except PandasError Graph :=
  if nT = 0 then .error .noObjectsToConcatenate
  else
    match edgeRowsOf cfg (filteredE cfg (normalizeRows cfg rows nT) nT) with
    | .error err => .error err
    | .ok W =>
      .ok { nodes := graphNodesOf (W.map (fun r => r.1))
            edges := buildGraphEdges cfg.directed W
            nodeAttrs := (List.range nA).map (fun i =>
              (nodeAttrMap (attrPairs cfg (normalizeRows cfg rows nT) i)).filter
                (fun kv => decide (kv.1 ∈ graphNodesOf (W.map (fun r => r.1))))) }

/-- The last element of a list satisfying a test, if any. -/
def lastMatch? {α : Type} (p : α → Bool) : List α → Option α
  | [] => none
  | a :: l =>
    match lastMatch? p l with
    | some b => some b
    | none => if p a then some a else none

/-- The graph convert_to_graph builds from no records: no nodes, no edges,
one empty attribute dict per attribute column. -/
def emptyGraph (nA : Nat) : Graph :=
  { nodes := [], edges := [], nodeAttrs := List.replicate nA [] }

/-- A row whose source and target cells are all plain strings, as the
identity extractors produce. -/
def strRow (r : Row) : Prop :=
  (∃ s, r.src = Val.str s) ∧ ∀ t ∈ r.tgts, ∃ s, t = Val.str s

/-- Modelled from the spec words quoted by claim C2, for comparison with
nodeAttrMap: de-duplicate identical (index, value) pairs first, then build
the map with last-write-wins. -/
def dropDupPairs : List (Val × Val) → List (Val × Val) → List (Val × Val)
  | [], _ => []
  | kv :: rest, seen =>
    if kv ∈ seen then dropDupPairs rest seen
    else kv :: dropDupPairs rest (kv :: seen)

/-- Modelled from the spec words quoted by claim C2: the node-attribute
map the claim describes. -/
def specNodeAttrMap (pairs : List (Val × Val)) : List (Val × Val) :=
  toDict (dropDupPairs pairs [])

theorem countPair_pos_iff {E : List (Val × Val)} {p : Val × Val} :
    0 < countPair E p ↔ p ∈ E := by
  unfold countPair
  rw [List.length_pos_iff_exists_mem]
  constructor
  · rintro ⟨q, hq⟩
    have h := List.mem_filter.mp hq
    have : q = p := by simpa using h.2
    exact this ▸ h.1
  · intro hp
    exact ⟨p, List.mem_filter.mpr ⟨hp, by simp⟩⟩

theorem valNeq_ne {a b : Val} (h : valNeq a b = true) (hb : b ≠ Val.na) : a ≠ b := by
  intro hab
  subst hab
  unfold valNeq at h
  rw [if_neg (by simp [hb])] at h
  simp at h

theorem lastMatch?_eq_none {α : Type} {p : α → Bool} {l : List α} :
    lastMatch? p l = none ↔ ∀ a ∈ l, p a = false := by
  induction l with
  | nil => simp [lastMatch?]
  | cons a l ih =>
    unfold lastMatch?
    cases hl : lastMatch? p l with
    | some b =>
      simp only [List.mem_cons]
      constructor
      · intro h; cases h
      · intro h
        have : ∀ x ∈ l, p x = false := fun x hx => h x (Or.inr hx)
        rw [← ih] at this
        rw [this] at hl
        cases hl
    | none =>
      by_cases hpa : p a = true
      · simp [hpa, ih.mp hl]
      · simp only [hpa, if_false]
        simp only [Bool.not_eq_true] at hpa
        simp [hpa]
        exact ih.mp hl

theorem lastMatch?_mem {α : Type} {p : α → Bool} {l : List α} {b : α}
    (h : lastMatch? p l = some b) : b ∈ l ∧ p b = true := by
  induction l with
  | nil => cases h
  | cons a l ih =>
    unfold lastMatch? at h
    cases hl : lastMatch? p l with
    | some c =>
      rw [hl] at h
      obtain rfl : c = b := by injection h
      obtain ⟨hmem, hp⟩ := ih hl
      exact ⟨List.mem_cons_of_mem _ hmem, hp⟩
    | none =>
      rw [hl] at h
      by_cases hpa : p a = true
      · rw [if_pos hpa] at h
        obtain rfl : a = b := by injection h
        exact ⟨List.mem_cons_self _ _, hpa⟩
      · rw [if_neg hpa] at h
        cases h

theorem lastMatch?_isSome {α : Type} {p : α → Bool} {l : List α} {a : α}
    (ha : a ∈ l) (hpa : p a = true) : ∃ b, lastMatch? p l = some b := by
  cases hl : lastMatch? p l with
  | some b => exact ⟨b, rfl⟩
  | none =>
    rw [lastMatch?_eq_none] at hl
    rw [hl a ha] at hpa
    cases hpa

theorem keyMatch_refl (d : Bool) (p : Val × Val) : keyMatch d p p = true := by
  cases d <;> simp [keyMatch]

theorem keyMatch_symm {d : Bool} {p q : Val × Val} (h : keyMatch d p q = true) :
    keyMatch d q p = true := by
  cases d <;> simp only [keyMatch, if_true, if_false, Bool.ite_eq_true_distrib,
    decide_eq_true_eq] at h ⊢
  · rcases h with h | h
    · exact Or.inl h.symm
    · right
      rw [h]
  · exact h.symm

theorem keyMatch_trans {d : Bool} {p q r : Val × Val}
    (h1 : keyMatch d p q = true) (h2 : keyMatch d q r = true) : keyMatch d p r = true := by
  cases d <;> simp only [keyMatch, if_true, if_false, Bool.ite_eq_true_distrib,
    decide_eq_true_eq] at h1 h2 ⊢
  · rcases h1 with h1 | h1 <;> rcases h2 with h2 | h2
    · exact Or.inl (h1.trans h2)
    · right
      rw [h1, h2]
    · right
      rw [h1, h2]
    · left
      rw [h1, h2]
  · exact h1.trans h2

theorem mem_addEdge_pair {d : Bool} {es : List Edge} {p : Val × Val} {w : Option Nat}
    {e : Edge} (h : e ∈ addEdge d es p w) :
    edgePair e ∈ es.map edgePair ∨ edgePair e = p := by
  unfold addEdge at h
  by_cases hAny : es.any (fun e => keyMatch d (edgePair e) p) = true
  · rw [if_pos hAny] at h
    obtain ⟨e0, he0, heq⟩ := List.mem_map.mp h
    by_cases hm : keyMatch d (edgePair e0) p = true
    · rw [if_pos hm] at heq
      left
      rw [← heq]
      have hmem := List.mem_map_of_mem edgePair he0
      exact hmem
    · rw [if_neg hm] at heq
      left
      rw [← heq]
      exact List.mem_map_of_mem _ he0
  · rw [if_neg hAny] at h
    rcases List.mem_append.mp h with h' | h'
    · left
      exact List.mem_map_of_mem _ h'
    · right
      have he : e = { src := p.1, tgt := p.2, weight := w } := by simpa using h'
      rw [he]
      rfl

theorem addEdge_match_exists {d : Bool} {p q : Val × Val} (hpq : keyMatch d p q = true)
    (es : List Edge) (w : Option Nat) :
    ∃ e ∈ addEdge d es p w, keyMatch d (edgePair e) q = true := by
  unfold addEdge
  by_cases hAny : es.any (fun e => keyMatch d (edgePair e) p) = true
  · rw [if_pos hAny]
    obtain ⟨e0, he0, hm0⟩ := List.any_eq_true.mp hAny
    refine ⟨{ e0 with weight := w }, ?_, ?_⟩
    · apply List.mem_map.mpr
      exact ⟨e0, he0, by rw [if_pos hm0]⟩
    · show keyMatch d (edgePair e0) q = true
      exact keyMatch_trans hm0 hpq
  · rw [if_neg hAny]
    refine ⟨{ src := p.1, tgt := p.2, weight := w }, List.mem_append_right _ ?_, ?_⟩
    · exact List.mem_singleton.mpr rfl
    · show keyMatch d p q = true
      exact hpq

theorem addEdge_match_weight {d : Bool} {p q : Val × Val} (hpq : keyMatch d p q = true)
    (es : List Edge) (w : Option Nat) :
    ∀ e ∈ addEdge d es p w, keyMatch d (edgePair e) q = true → e.weight = w := by
  intro e he hm
  unfold addEdge at he
  by_cases hAny : es.any (fun e => keyMatch d (edgePair e) p) = true
  · rw [if_pos hAny] at he
    obtain ⟨e0, he0, heq⟩ := List.mem_map.mp he
    by_cases hm0 : keyMatch d (edgePair e0) p = true
    · rw [if_pos hm0] at heq
      rw [← heq]
    · rw [if_neg hm0] at heq
      subst heq
      exact absurd (keyMatch_trans hm (keyMatch_symm hpq)) hm0
  · rw [if_neg hAny] at he
    rcases List.mem_append.mp he with h' | h'
    · exfalso
      rw [List.any_eq_true] at hAny
      exact hAny ⟨e, h', keyMatch_trans hm (keyMatch_symm hpq)⟩
    · have he2 : e = { src := p.1, tgt := p.2, weight := w } := by simpa using h'
      rw [he2]

theorem addEdge_nomatch_exists {d : Bool} {p q : Val × Val} (hpq : keyMatch d p q = false)
    {es : List Edge} (w : Option Nat)
    (hes : ∃ e ∈ es, keyMatch d (edgePair e) q = true) :
    ∃ e ∈ addEdge d es p w, keyMatch d (edgePair e) q = true := by
  obtain ⟨e0, he0, hq0⟩ := hes
  unfold addEdge
  by_cases hAny : es.any (fun e => keyMatch d (edgePair e) p) = true
  · rw [if_pos hAny]
    by_cases hm0 : keyMatch d (edgePair e0) p = true
    · exfalso
      have := keyMatch_trans (keyMatch_symm hm0) hq0
      rw [hpq] at this
      cases this
    · refine ⟨e0, ?_, hq0⟩
      apply List.mem_map.mpr
      exact ⟨e0, he0, by rw [if_neg hm0]⟩
  · rw [if_neg hAny]
    exact ⟨e0, List.mem_append_left _ he0, hq0⟩

theorem addEdge_nomatch_weight {d : Bool} {p q : Val × Val} (hpq : keyMatch d p q = false)
    {es : List Edge} {w0 : Option Nat} (w : Option Nat)
    (hes : ∀ e ∈ es, keyMatch d (edgePair e) q = true → e.weight = w0) :
    ∀ e ∈ addEdge d es p w, keyMatch d (edgePair e) q = true → e.weight = w0 := by
  intro e he hm
  unfold addEdge at he
  by_cases hAny : es.any (fun e => keyMatch d (edgePair e) p) = true
  · rw [if_pos hAny] at he
    obtain ⟨e0, he0, heq⟩ := List.mem_map.mp he
    by_cases hm0 : keyMatch d (edgePair e0) p = true
    · exfalso
      rw [if_pos hm0] at heq
      have hq0 : keyMatch d (edgePair e0) q = true := by
        rw [← heq] at hm
        exact hm
      have hcontra := keyMatch_trans (keyMatch_symm hm0) hq0
      rw [hpq] at hcontra
      cases hcontra
    · rw [if_neg hm0] at heq
      subst heq
      exact hes e0 he0 hm
  · rw [if_neg hAny] at he
    rcases List.mem_append.mp he with h' | h'
    · exact hes e h' hm
    · exfalso
      have he2 : e = { src := p.1, tgt := p.2, weight := w } := by simpa using h'
      subst he2
      have hm2 : keyMatch d p q = true := hm
      rw [hpq] at hm2
      cases hm2

theorem foldl_addEdge_nomatch {d : Bool} {q : Val × Val} {w0 : Option Nat} :
    ∀ (rows : List ((Val × Val) × Option Nat)) (es : List Edge),
      (∀ r ∈ rows, keyMatch d r.1 q = false) →
      (∃ e ∈ es, keyMatch d (edgePair e) q = true) →
      (∀ e ∈ es, keyMatch d (edgePair e) q = true → e.weight = w0) →
      (∃ e ∈ rows.foldl (fun es r => addEdge d es r.1 r.2) es,
          keyMatch d (edgePair e) q = true) ∧
      (∀ e ∈ rows.foldl (fun es r => addEdge d es r.1 r.2) es,
          keyMatch d (edgePair e) q = true → e.weight = w0) := by
  intro rows
  induction rows with
  | nil =>
    intro es _ hex hall
    exact ⟨hex, hall⟩
  | cons r rows ih =>
    intro es hnone hex hall
    simp only [List.foldl_cons]
    have hr : keyMatch d r.1 q = false := hnone r (List.mem_cons_self _ _)
    exact ih _ (fun r' hr' => hnone r' (List.mem_cons_of_mem _ hr'))
      (addEdge_nomatch_exists hr r.2 hex) (addEdge_nomatch_weight hr r.2 hall)

theorem foldl_addEdge_spec {d : Bool} {q : Val × Val} :
    ∀ (rows : List ((Val × Val) × Option Nat)) (es : List Edge)
      (b : (Val × Val) × Option Nat),
      lastMatch? (fun r => keyMatch d r.1 q) rows = some b →
      (∃ e ∈ rows.foldl (fun es r => addEdge d es r.1 r.2) es,
          keyMatch d (edgePair e) q = true) ∧
      (∀ e ∈ rows.foldl (fun es r => addEdge d es r.1 r.2) es,
          keyMatch d (edgePair e) q = true → e.weight = b.2) := by
  intro rows
  induction rows with
  | nil =>
    intro es b h
    cases h
  | cons r rows ih =>
    intro es b h
    simp only [List.foldl_cons]
    unfold lastMatch? at h
    cases hl : lastMatch? (fun r => keyMatch d r.1 q) rows with
    | some c =>
      rw [hl] at h
      obtain rfl : c = b := by injection h
      exact ih _ c hl
    | none =>
      rw [hl] at h
      by_cases hr : keyMatch d r.1 q = true
      · rw [if_pos hr] at h
        obtain rfl : r = b := by injection h
        have hnone : ∀ r' ∈ rows, keyMatch d r'.1 q = false :=
          fun r' hr' => lastMatch?_eq_none.mp hl r' hr'
        exact foldl_addEdge_nomatch rows _ hnone
          (addEdge_match_exists hr es r.2)
          (addEdge_match_weight hr es r.2)
      · rw [if_neg hr] at h
        cases h

theorem buildGraphEdges_spec {d : Bool} {q : Val × Val}
    {rows : List ((Val × Val) × Option Nat)} {b : (Val × Val) × Option Nat}
    (h : lastMatch? (fun r => keyMatch d r.1 q) rows = some b) :
    (∃ e ∈ buildGraphEdges d rows, keyMatch d (edgePair e) q = true) ∧
    (∀ e ∈ buildGraphEdges d rows, keyMatch d (edgePair e) q = true → e.weight = b.2) :=
  foldl_addEdge_spec rows [] b h

theorem foldl_addEdge_pairs {d : Bool} :
    ∀ (rows : List ((Val × Val) × Option Nat)) (es : List Edge) (e : Edge),
      e ∈ rows.foldl (fun es r => addEdge d es r.1 r.2) es →
      edgePair e ∈ es.map edgePair ∨ edgePair e ∈ rows.map (fun r => r.1) := by
  intro rows
  induction rows with
  | nil =>
    intro es e h
    left
    exact List.mem_map_of_mem _ h
  | cons r rows ih =>
    intro es e h
    simp only [List.foldl_cons] at h
    rcases ih _ e h with h' | h'
    · obtain ⟨e0, he0, heq⟩ := List.mem_map.mp h'
      rcases mem_addEdge_pair he0 with h2 | h2
      · left
        rw [← heq]
        exact h2
      · right
        rw [List.map_cons, ← heq, h2]
        exact List.mem_cons_self _ _
    · right
      rw [List.map_cons]
      exact List.mem_cons_of_mem _ h'

theorem mem_buildGraphEdges_pair {d : Bool} {rows : List ((Val × Val) × Option Nat)}
    {e : Edge} (h : e ∈ buildGraphEdges d rows) :
    edgePair e ∈ rows.map (fun r => r.1) := by
  rcases foldl_addEdge_pairs rows [] e h with h' | h'
  · simp at h'
  · exact h'

theorem exists_edge_of_mem_rows {d : Bool} {rows : List ((Val × Val) × Option Nat)}
    {r : (Val × Val) × Option Nat} (hr : r ∈ rows) :
    ∃ e ∈ buildGraphEdges d rows, keyMatch d (edgePair e) r.1 = true := by
  obtain ⟨b, hb⟩ := lastMatch?_isSome (p := fun r' => keyMatch d r'.1 r.1) hr (keyMatch_refl d r.1)
  exact (buildGraphEdges_spec hb).1

theorem mem_addNode {ns : List Val} {v w : Val} : v ∈ addNode ns w ↔ v ∈ ns ∨ v = w := by
  unfold addNode
  by_cases h : w ∈ ns
  · rw [if_pos h]
    constructor
    · exact Or.inl
    · rintro (hv | rfl)
      · exact hv
      · exact h
  · rw [if_neg h]
    simp

theorem mem_graphNodesOf {pairs : List (Val × Val)} {v : Val} :
    v ∈ graphNodesOf pairs ↔ ∃ p ∈ pairs, v = p.1 ∨ v = p.2 := by
  suffices h : ∀ (l : List (Val × Val)) (ns : List Val),
      v ∈ l.foldl (fun ns p => addNode (addNode ns p.1) p.2) ns ↔
        v ∈ ns ∨ ∃ p ∈ l, v = p.1 ∨ v = p.2 by
    simpa using h pairs []
  intro l
  induction l with
  | nil =>
    intro ns
    simp
  | cons p l ih =>
    intro ns
    simp only [List.foldl_cons]
    rw [ih, mem_addNode, mem_addNode]
    simp only [List.mem_cons]
    constructor
    · rintro (((h | h) | h) | ⟨p', hp', h⟩)
      · exact Or.inl h
      · exact Or.inr ⟨p, Or.inl rfl, Or.inl h⟩
      · exact Or.inr ⟨p, Or.inl rfl, Or.inr h⟩
      · exact Or.inr ⟨p', Or.inr hp', h⟩
    · rintro (h | ⟨p', hp' | hp', h⟩)
      · exact Or.inl (Or.inl (Or.inl h))
      · subst hp'
        rcases h with h | h
        · exact Or.inl (Or.inl (Or.inr h))
        · exact Or.inl (Or.inr h)
      · exact Or.inr ⟨p', hp', h⟩

theorem mem_buildE {rows : List Row} {nT : Nat} {p : Val × Val} :
    p ∈ buildE rows nT ↔
      ∃ i, i < nT ∧ ∃ r ∈ rows, r.tgts.getD i Val.na ≠ Val.na ∧
        p = (r.src, r.tgts.getD i Val.na) := by
  unfold buildE colPairs
  rw [List.mem_flatMap]
  constructor
  · rintro ⟨i, hi, hp⟩
    rw [List.mem_range] at hi
    obtain ⟨r, hr, heq⟩ := List.mem_filterMap.mp hp
    by_cases ht : r.tgts.getD i Val.na = Val.na
    · rw [if_pos ht] at heq
      cases heq
    · rw [if_neg ht] at heq
      injection heq with heq
      exact ⟨i, hi, r, hr, ht, heq.symm⟩
  · rintro ⟨i, hi, r, hr, ht, rfl⟩
    refine ⟨i, List.mem_range.mpr hi, ?_⟩
    apply List.mem_filterMap.mpr
    exact ⟨r, hr, by rw [if_neg ht]⟩

theorem mem_filteredE {cfg : Config} {rows : List Row} {nT : Nat} {p : Val × Val}
    (h : p ∈ filteredE cfg rows nT) : p ∈ buildE rows nT := by
  unfold filteredE at h
  by_cases hsl : cfg.self_loops = true
  · rw [hsl] at h
    simpa using h
  · rw [Bool.not_eq_true] at hsl
    rw [hsl] at h
    simp only [Bool.false_eq_true, if_false] at h
    exact (List.mem_filter.mp h).1

theorem mem_filteredE_no_loops {cfg : Config} {rows : List Row} {nT : Nat} {p : Val × Val}
    (hsl : cfg.self_loops = false) (h : p ∈ filteredE cfg rows nT) :
    p ∈ buildE rows nT ∧ valNeq p.1 p.2 = true := by
  unfold filteredE at h
  rw [hsl] at h
  simp only [Bool.false_eq_true, if_false] at h
  exact ⟨(List.mem_filter.mp h).1, (List.mem_filter.mp h).2⟩

theorem weightedRowsAux_ok {E : List (Val × Val)} :
    ∀ {l : List (Val × Val)} {W : List ((Val × Val) × Nat)},
      weightedRowsAux E l = some W →
      W = l.map (fun p => (p, countPair E p)) ∧
        ∀ p ∈ l, p.1 ≠ Val.na ∧ p.2 ≠ Val.na := by
  intro l
  induction l with
  | nil =>
    intro W h
    unfold weightedRowsAux at h
    injection h with h
    exact ⟨h.symm, by simp⟩
  | cons p rest ih =>
    intro W h
    unfold weightedRowsAux at h
    cases hw : rowWeight E p with
    | none =>
      rw [hw] at h
      cases h
    | some w =>
      rw [hw] at h
      cases hrest : weightedRowsAux E rest with
      | none =>
        rw [hrest] at h
        cases h
      | some ws =>
        rw [hrest] at h
        injection h with h
        obtain ⟨hmap, hna⟩ := ih hrest
        unfold rowWeight at hw
        by_cases hcond : p.1 = Val.na ∨ p.2 = Val.na
        · rw [if_pos hcond] at hw
          cases hw
        · rw [if_neg hcond] at hw
          injection hw with hw
          push_neg at hcond
          constructor
          · rw [← h, hmap, List.map_cons, hw]
          · intro p' hp'
            rcases List.mem_cons.mp hp' with h' | h'
            · rw [h']
              exact hcond
            · exact hna p' h'

theorem weightedRowsAux_some {E : List (Val × Val)} :
    ∀ {l : List (Val × Val)},
      (∀ p ∈ l, p.1 ≠ Val.na ∧ p.2 ≠ Val.na) →
      weightedRowsAux E l = some (l.map (fun p => (p, countPair E p))) := by
  intro l
  induction l with
  | nil =>
    intro _
    rfl
  | cons p rest ih =>
    intro h
    have hp := h p (List.mem_cons_self _ _)
    have hrest := ih (fun p' hp' => h p' (List.mem_cons_of_mem _ hp'))
    have hcond : ¬(p.1 = Val.na ∨ p.2 = Val.na) := by
      push_neg
      exact hp
    unfold weightedRowsAux
    rw [hrest]
    unfold rowWeight
    rw [if_neg hcond]
    rfl

theorem edgeRowsOf_ok_fst {cfg : Config} {E : List (Val × Val)}
    {W : List ((Val × Val) × Option Nat)} (h : edgeRowsOf cfg E = .ok W) :
    W.map (fun r => r.1) = E := by
  unfold edgeRowsOf at h
  by_cases hw : cfg.weighted = true
  · rw [hw] at h
    simp only [if_true] at h
    by_cases hl : E.any (fun p => p.1.isLst || p.2.isLst) = true
    · rw [hl] at h
      cases h
    · rw [Bool.not_eq_true] at hl
      rw [hl] at h
      simp only [Bool.false_eq_true, if_false] at h
      cases hW0 : weightedRows E with
      | none =>
        rw [hW0] at h
        cases h
      | some W0 =>
        rw [hW0] at h
        injection h with h
        rw [weightedRows] at hW0
        obtain ⟨hmap, _⟩ := weightedRowsAux_ok hW0
        rw [← h, hmap, List.map_map, List.map_map]
        exact List.map_id E
  · rw [Bool.not_eq_true] at hw
    rw [hw] at h
    simp only [Bool.false_eq_true, if_false] at h
    injection h with h
    rw [← h, List.map_map]
    exact List.map_id E

theorem edgeRowsOf_ok_weighted {cfg : Config} {E : List (Val × Val)}
    {W : List ((Val × Val) × Option Nat)} (hw : cfg.weighted = true)
    (h : edgeRowsOf cfg E = .ok W) :
    W = E.map (fun p => (p, some (countPair E p))) := by
  unfold edgeRowsOf at h
  rw [hw] at h
  simp only [if_true] at h
  by_cases hl : E.any (fun p => p.1.isLst || p.2.isLst) = true
  · rw [hl] at h
    cases h
  · rw [Bool.not_eq_true] at hl
    rw [hl] at h
    simp only [Bool.false_eq_true, if_false] at h
    cases hW0 : weightedRows E with
    | none =>
      rw [hW0] at h
      cases h
    | some W0 =>
      rw [hW0] at h
      injection h with h
      rw [weightedRows] at hW0
      obtain ⟨hmap, _⟩ := weightedRowsAux_ok hW0
      rw [← h, hmap, List.map_map]
      rfl

theorem edgeRowsOf_ok_of_str (cfg : Config) {E : List (Val × Val)}
    (hE : ∀ p ∈ E, (∃ s, p.1 = Val.str s) ∧ ∃ s, p.2 = Val.str s) :
    ∃ W, edgeRowsOf cfg E = .ok W := by
  unfold edgeRowsOf
  by_cases hw : cfg.weighted = true
  · rw [hw]
    simp only [if_true]
    have hl : E.any (fun p => p.1.isLst || p.2.isLst) = false := by
      rw [List.any_eq_false]
      intro p hp
      obtain ⟨⟨s1, h1⟩, ⟨s2, h2⟩⟩ := hE p hp
      rw [h1, h2]
      simp [Val.isLst]
    rw [hl]
    simp only [Bool.false_eq_true, if_false]
    have hstr : ∀ p ∈ E, p.1 ≠ Val.na ∧ p.2 ≠ Val.na := by
      intro p hp
      obtain ⟨⟨s1, h1⟩, ⟨s2, h2⟩⟩ := hE p hp
      constructor
      · rw [h1]
        intro hc
        cases hc
      · rw [h2]
        intro hc
        cases hc
    rw [weightedRows, weightedRowsAux_some hstr]
    exact ⟨_, rfl⟩
  · rw [Bool.not_eq_true] at hw
    rw [hw]
    simp only [Bool.false_eq_true, if_false]
    exact ⟨_, rfl⟩

theorem getD_mem_of_lt {l : List Val} : ∀ {i : Nat} (d : Val),
    i < l.length → l.getD i d ∈ l := by
  induction l with
  | nil =>
    intro i d h
    simp at h
  | cons x l ih =>
    intro i d h
    cases i with
    | zero => exact List.mem_cons_self _ _
    | succ i =>
      simp only [List.length_cons, Nat.succ_lt_succ_iff] at h
      simp only [List.getD_cons_succ]
      exact List.mem_cons_of_mem _ (ih d h)

theorem getD_mem_of_ne {l : List Val} : ∀ {i : Nat} {d : Val},
    l.getD i d ≠ d → l.getD i d ∈ l := by
  induction l with
  | nil =>
    intro i d h
    simp [List.getD] at h
  | cons x l ih =>
    intro i d h
    cases i with
    | zero => exact List.mem_cons_self _ _
    | succ i =>
      simp only [List.getD_cons_succ] at h ⊢
      exact List.mem_cons_of_mem _ (ih h)

theorem getD_of_length_le {l : List Val} : ∀ {i : Nat} (d : Val),
    l.length ≤ i → l.getD i d = d := by
  induction l with
  | nil =>
    intro i d _
    simp [List.getD]
  | cons x l ih =>
    intro i d h
    cases i with
    | zero => simp at h
    | succ i =>
      simp only [List.length_cons, Nat.succ_le_succ_iff] at h
      simp only [List.getD_cons_succ]
      exact ih d h

theorem set_of_length_le {l : List Val} : ∀ {i : Nat} (a : Val),
    l.length ≤ i → l.set i a = l := by
  induction l with
  | nil =>
    intro i a _
    rfl
  | cons x l ih =>
    intro i a h
    cases i with
    | zero => simp at h
    | succ i =>
      simp only [List.length_cons, Nat.succ_le_succ_iff] at h
      simp only [List.set_cons_succ]
      rw [ih a h]

theorem applyMaps_strRow {r : RawRow} :
    strRow (applyMaps (fun s => Val.str s) (fun s => Val.str s) r) := by
  constructor
  · exact ⟨_, rfl⟩
  · intro t ht
    simp only [applyMaps, List.mem_map] at ht
    obtain ⟨c, _, hc⟩ := ht
    exact ⟨_, hc.symm⟩

theorem explodeSrc_strRow {rows : List Row} (h : ∀ r ∈ rows, strRow r) :
    ∀ r ∈ explodeSrc rows, strRow r := by
  intro r hr
  unfold explodeSrc at hr
  rw [List.mem_flatMap] at hr
  obtain ⟨r0, hr0, hmem⟩ := hr
  obtain ⟨⟨s, hs⟩, htgts⟩ := h r0 hr0
  rw [hs] at hmem
  simp only [explodeVal, List.map_cons, List.map_nil, List.mem_singleton] at hmem
  subst hmem
  exact ⟨⟨s, rfl⟩, htgts⟩

theorem explodeTgt_strRow {i : Nat} {rows : List Row} (h : ∀ r ∈ rows, strRow r) :
    ∀ r ∈ explodeTgt i rows, strRow r := by
  intro r hr
  unfold explodeTgt at hr
  rw [List.mem_flatMap] at hr
  obtain ⟨r0, hr0, hmem⟩ := hr
  obtain ⟨hsrc, htgts⟩ := h r0 hr0
  by_cases hlen : r0.tgts.length ≤ i
  · rw [getD_of_length_le Val.na hlen] at hmem
    simp only [explodeVal, List.map_cons, List.map_nil, List.mem_singleton] at hmem
    subst hmem
    refine ⟨hsrc, ?_⟩
    intro t ht
    rw [set_of_length_le Val.na hlen] at ht
    exact htgts t ht
  · push_neg at hlen
    have hel : r0.tgts.getD i Val.na ∈ r0.tgts := getD_mem_of_lt Val.na hlen
    obtain ⟨s, hs⟩ := htgts _ hel
    rw [hs] at hmem
    simp only [explodeVal, List.map_cons, List.map_nil, List.mem_singleton] at hmem
    subst hmem
    refine ⟨hsrc, ?_⟩
    intro t ht
    rcases List.mem_or_eq_of_mem_set ht with ht' | ht'
    · exact htgts t ht'
    · exact ⟨s, ht'⟩

theorem foldl_explodeTgt_strRow : ∀ (l : List Nat) (rows : List Row),
    (∀ r ∈ rows, strRow r) →
    ∀ r ∈ l.foldl (fun rs i => explodeTgt i rs) rows, strRow r := by
  intro l
  induction l with
  | nil =>
    intro rows h
    exact h
  | cons i l ih =>
    intro rows h
    simp only [List.foldl_cons]
    exact ih _ (explodeTgt_strRow h)

theorem normalizeRows_strRow {cfg : Config} {rows : List RawRow} {nT : Nat}
    (hs : cfg.source_map = fun s => Val.str s) (ht : cfg.target_map = fun s => Val.str s) :
    ∀ r ∈ normalizeRows cfg rows nT, strRow r := by
  have hmap : ∀ r ∈ rows.map (applyMaps cfg.source_map cfg.target_map), strRow r := by
    intro r hr
    rw [List.mem_map] at hr
    obtain ⟨r0, _, hr0⟩ := hr
    rw [← hr0, hs, ht]
    exact applyMaps_strRow
  unfold normalizeRows
  by_cases hexp : cfg.explode = true
  · rw [hexp]
    simp only [if_true]
    unfold explodeAll
    exact foldl_explodeTgt_strRow _ _ (explodeSrc_strRow hmap)
  · rw [Bool.not_eq_true] at hexp
    rw [hexp]
    simp only [Bool.false_eq_true, if_false]
    exact hmap

theorem filteredE_str {cfg : Config} {rows2 : List Row} {nT : Nat}
    (hrows : ∀ r ∈ rows2, strRow r) :
    ∀ p ∈ filteredE cfg rows2 nT, (∃ s, p.1 = Val.str s) ∧ ∃ s, p.2 = Val.str s := by
  intro p hp
  have hb := mem_filteredE hp
  rw [mem_buildE] at hb
  obtain ⟨i, _, r, hr, htne, hpe⟩ := hb
  obtain ⟨hsrc, htgts⟩ := hrows r hr
  subst hpe
  exact ⟨hsrc, htgts _ (getD_mem_of_ne htne)⟩

theorem convertToGraph_ok {cfg : Config} {nT nA : Nat} {rows : List RawRow} {G : Graph}
    (h : convertToGraph cfg nT nA rows = .ok G) :
    nT ≠ 0 ∧ ∃ W, edgeRowsOf cfg (filteredE cfg (normalizeRows cfg rows nT) nT) = .ok W ∧
      G.nodes = graphNodesOf (W.map (fun r => r.1)) ∧
      G.edges = buildGraphEdges cfg.directed W ∧
      G.nodeAttrs = (List.range nA).map (fun i =>
        (nodeAttrMap (attrPairs cfg (normalizeRows cfg rows nT) i)).filter
          (fun kv => decide (kv.1 ∈ graphNodesOf (W.map (fun r => r.1))))) := by
  unfold convertToGraph at h
  by_cases hnT : nT = 0
  · rw [if_pos hnT] at h
    cases h
  · rw [if_neg hnT] at h
    refine ⟨hnT, ?_⟩
    cases hE : edgeRowsOf cfg (filteredE cfg (normalizeRows cfg rows nT) nT) with
    | error err =>
      rw [hE] at h
      cases h
    | ok W =>
      rw [hE] at h
      injection h with h
      exact ⟨W, rfl, by rw [← h], by rw [← h], by rw [← h]⟩

theorem convertToGraph_ok_of_str {cfg : Config} {nT nA : Nat} {rows : List RawRow}
    (hs : cfg.source_map = fun s => Val.str s) (ht : cfg.target_map = fun s => Val.str s)
    (hnT : nT ≠ 0) :
    ∃ G, convertToGraph cfg nT nA rows = .ok G := by
  obtain ⟨W, hW⟩ := edgeRowsOf_ok_of_str cfg
    (filteredE_str (normalizeRows_strRow hs ht))
  unfold convertToGraph
  rw [if_neg hnT, hW]
  exact ⟨_, rfl⟩

theorem dictLookup_insertOrReplace {k v : Val} : ∀ {d : List (Val × Val)} {k' : Val},
    dictLookup (insertOrReplace d k v) k' = if k = k' then some v else dictLookup d k' := by
  intro d
  induction d with
  | nil =>
    intro k'
    rfl
  | cons kv rest ih =>
    intro k'
    unfold insertOrReplace
    by_cases h1 : kv.1 = k
    · rw [if_pos h1]
      simp only [dictLookup]
      by_cases h2 : k = k'
      · rw [if_pos h2, if_pos h2]
      · rw [if_neg h2, if_neg h2]
        have h3 : ¬(kv.1 = k') := by
          rw [h1]
          exact h2
        rw [if_neg h3]
    · rw [if_neg h1]
      simp only [dictLookup]
      by_cases h2 : kv.1 = k'
      · have h3 : ¬(k = k') := fun hc => h1 (h2.trans hc.symm)
        rw [if_pos h2, if_neg h3, if_pos h2]
      · rw [if_neg h2, if_neg h2, ih]

theorem dictLookup_toDict {k : Val} {l : List (Val × Val)} :
    dictLookup (toDict l) k =
      Option.map (fun kv => kv.2) (lastMatch? (fun kv => decide (kv.1 = k)) l) := by
  suffices h : ∀ (l : List (Val × Val)) (d : List (Val × Val)),
      dictLookup (l.foldl (fun d kv => insertOrReplace d kv.1 kv.2) d) k =
        match lastMatch? (fun kv => decide (kv.1 = k)) l with
        | some b => some b.2
        | none => dictLookup d k by
    rw [toDict, h l []]
    cases lastMatch? (fun kv => decide (kv.1 = k)) l <;> rfl
  intro l
  induction l with
  | nil =>
    intro d
    rfl
  | cons kv l ih =>
    intro d
    simp only [List.foldl_cons]
    rw [ih]
    cases hl : lastMatch? (fun kv => decide (kv.1 = k)) l with
    | some b =>
      have h2 : lastMatch? (fun kv => decide (kv.1 = k)) (kv :: l) = some b := by
        simp only [lastMatch?]
        rw [hl]
      rw [h2]
    | none =>
      by_cases hk : kv.1 = k
      · have h2 : lastMatch? (fun kv => decide (kv.1 = k)) (kv :: l) = some kv := by
          simp only [lastMatch?]
          rw [hl]
          show (if decide (kv.1 = k) = true then some kv else none) = some kv
          rw [if_pos (by simp [hk])]
        rw [h2]
        show dictLookup (insertOrReplace d kv.1 kv.2) k = some kv.2
        rw [dictLookup_insertOrReplace, if_pos hk]
      · have h2 : lastMatch? (fun kv => decide (kv.1 = k)) (kv :: l) = none := by
          simp only [lastMatch?]
          rw [hl]
          show (if decide (kv.1 = k) = true then some kv else none) = none
          rw [if_neg (by simp [hk])]
        rw [h2]
        show dictLookup (insertOrReplace d kv.1 kv.2) k = dictLookup d k
        rw [dictLookup_insertOrReplace, if_neg hk]

theorem dropDupValues_sub : ∀ {l : List (Val × Val)} {seen : List Val} {kv : Val × Val},
    kv ∈ dropDupValues l seen → kv ∈ l := by
  intro l
  induction l with
  | nil =>
    intro seen kv h
    cases h
  | cons kv0 l ih =>
    intro seen kv h
    unfold dropDupValues at h
    by_cases hs : kv0.2 ∈ seen
    · rw [if_pos hs] at h
      exact List.mem_cons_of_mem _ (ih h)
    · rw [if_neg hs] at h
      rcases List.mem_cons.mp h with h' | h'
      · rw [h']
        exact List.mem_cons_self _ _
      · exact List.mem_cons_of_mem _ (ih h')

theorem dropDupValues_not_seen : ∀ {l : List (Val × Val)} {seen : List Val} {kv : Val × Val},
    kv ∈ dropDupValues l seen → kv.2 ∉ seen := by
  intro l
  induction l with
  | nil =>
    intro seen kv h
    cases h
  | cons kv0 l ih =>
    intro seen kv h
    unfold dropDupValues at h
    by_cases hs : kv0.2 ∈ seen
    · rw [if_pos hs] at h
      exact ih h
    · rw [if_neg hs] at h
      rcases List.mem_cons.mp h with h' | h'
      · rw [h']
        exact hs
      · intro hmem
        exact ih h' (List.mem_cons_of_mem _ hmem)

theorem dropDupValues_pairwise : ∀ (l : List (Val × Val)) (seen : List Val),
    List.Pairwise (fun a b => a.2 ≠ b.2) (dropDupValues l seen) := by
  intro l
  induction l with
  | nil =>
    intro seen
    constructor
  | cons kv0 l ih =>
    intro seen
    unfold dropDupValues
    by_cases hs : kv0.2 ∈ seen
    · rw [if_pos hs]
      exact ih seen
    · rw [if_neg hs]
      constructor
      · intro kv hkv heq
        exact (dropDupValues_not_seen hkv) (by rw [← heq]; exact List.mem_cons_self _ _)
      · exact ih _

theorem dropDupValues_complete : ∀ {l : List (Val × Val)} (seen : List Val) {kv : Val × Val},
    kv ∈ l → kv.2 ∈ seen ∨ ∃ k', (k', kv.2) ∈ dropDupValues l seen := by
  intro l
  induction l with
  | nil =>
    intro seen kv h
    cases h
  | cons kv0 l ih =>
    intro seen kv h
    unfold dropDupValues
    rcases List.mem_cons.mp h with h' | h'
    · subst h'
      by_cases hs : kv.2 ∈ seen
      · exact Or.inl hs
      · rw [if_neg hs]
        right
        refine ⟨kv.1, ?_⟩
        have : (kv.1, kv.2) = kv := rfl
        rw [this]
        exact List.mem_cons_self _ _
    · by_cases hs : kv0.2 ∈ seen
      · rw [if_pos hs]
        exact ih seen h'
      · rw [if_neg hs]
        rcases ih (kv0.2 :: seen) h' with hmem | ⟨k', hk'⟩
        · rcases List.mem_cons.mp hmem with heq | hmem2
          · right
            refine ⟨kv0.1, ?_⟩
            rw [heq]
            have : (kv0.1, kv0.2) = kv0 := rfl
            rw [this]
            exact List.mem_cons_self _ _
          · exact Or.inl hmem2
        · right
          exact ⟨k', List.mem_cons_of_mem _ hk'⟩

theorem keyMatch_true_eq {p q : Val × Val} (h : keyMatch true p q = true) : p = q := by
  simp only [keyMatch, if_true, decide_eq_true_eq] at h
  exact h

theorem keyMatch_cases {d : Bool} {p q : Val × Val} (h : keyMatch d p q = true) :
    p = q ∨ p = (q.2, q.1) := by
  cases d <;> simp only [keyMatch, if_true, if_false, Bool.ite_eq_true_distrib,
    decide_eq_true_eq] at h
  · exact h
  · exact Or.inl h

/-- C3 counterexample: the claim excludes the token of length two made of
an at-sign and one character, but find_mentions applies the length test to
the token including its at-sign, so that token is returned stripped. -/
theorem c3_counterexample : find_mentions "@a" = [ "a" ] := by decide

/-- C3 (amended): in mentions mode the extractor returns, stripped of all
leading at-signs, exactly the lower-cased whitespace tokens that start
with an at-sign and whose total length including the at-sign exceeds one;
so the one-character mention is included, and the quoted examples hold. -/
theorem c3_mentions_rule (x t : String)
    (h1 : t ∈ pySplitWs (pyLower x)) (h2 : startsWithAt t = true)
    (h3 : 1 < pyLen t) :
    lstripAt t ∈ find_mentions x ∧
    (∀ r ∈ find_mentions x, ∃ u ∈ pySplitWs (pyLower x),
      startsWithAt u = true ∧ 1 < pyLen u ∧ r = lstripAt u) ∧
    find_mentions "hello @bob @al #x" = [ "bob", "al" ] ∧
    find_mentions "@ab" = [ "ab" ] ∧
    find_mentions "@a" = [ "a" ] := by
  refine ⟨?_, ?_, by decide, by decide, by decide⟩
  · unfold find_mentions
    apply List.mem_map.mpr
    refine ⟨t, ?_, rfl⟩
    apply List.mem_filter.mpr
    refine ⟨List.mem_filter.mpr ⟨h1, h2⟩, ?_⟩
    simpa using h3
  · intro r hr
    unfold find_mentions at hr
    obtain ⟨u, hu, hru⟩ := List.mem_map.mp hr
    have h5 := List.mem_filter.mp hu
    have h6 := List.mem_filter.mp h5.1
    refine ⟨u, h6.1, h6.2, ?_, hru.symm⟩
    simpa using h5.2

/-- C3 witness: the theorem applied to the spec's own example string and
its first mention token. -/
theorem c3_witness :
    ( "@bob" ∈ pySplitWs (pyLower "hello @bob @al #x") ∧
      startsWithAt "@bob" = true ∧ 1 < pyLen "@bob") ∧
    (lstripAt "@bob" ∈ find_mentions "hello @bob @al #x" ∧
      (∀ r ∈ find_mentions "hello @bob @al #x",
        ∃ u ∈ pySplitWs (pyLower "hello @bob @al #x"),
          startsWithAt u = true ∧ 1 < pyLen u ∧ r = lstripAt u) ∧
      find_mentions "hello @bob @al #x" = [ "bob", "al" ] ∧
      find_mentions "@ab" = [ "ab" ] ∧
      find_mentions "@a" = [ "a" ]) :=
  ⟨⟨by decide, by decide, by decide⟩,
    c3_mentions_rule "hello @bob @al #x" "@bob" (by decide) (by decide) (by decide)⟩

/-- C10: the token of two at-signs passes the length test (its length
including the at-sign prefix is two) and lstrip removes every leading
at-sign, so find_mentions returns the literal empty string. -/
theorem c10_empty_mention : find_mentions "@@" = [ "" ] ∧ pyLen "@@" = 2 := by decide

/-- C2 counterexample: with two rows carrying the same attribute value
under different index values, the claim's pair-level de-duplication keeps
an entry for the second index, but the code's Series.drop_duplicates
de-duplicates by value alone and the second index gets no entry. -/
theorem c2_counterexample :
    dictLookup (nodeAttrMap [ (Val.str "a", Val.str "v"), (Val.str "b", Val.str "v") ])
      (Val.str "b") = none ∧
    dictLookup (specNodeAttrMap [ (Val.str "a", Val.str "v"), (Val.str "b", Val.str "v") ])
      (Val.str "b") = some (Val.str "v") := by
  decide

/-- C2 (amended): the node-attribute map de-duplicates by attribute VALUE
alone (at most one surviving row per distinct value, each surviving row an
input row and every occurring value represented), and the map sends an
index value to the attribute value of the last surviving row bearing that
index; an index whose rows were all dropped gets no entry. -/
theorem c2_attr_map_value_dedup (pairs : List (Val × Val)) (i : Val) :
    dictLookup (nodeAttrMap pairs) i =
      Option.map (fun kv => kv.2)
        (lastMatch? (fun kv => decide (kv.1 = i)) (dropDupValues pairs [])) ∧
    List.Pairwise (fun a b => a.2 ≠ b.2) (dropDupValues pairs []) ∧
    (∀ kv ∈ dropDupValues pairs [], kv ∈ pairs) ∧
    (∀ kv ∈ pairs, ∃ k', (k', kv.2) ∈ dropDupValues pairs []) := by
  refine ⟨?_, dropDupValues_pairwise pairs [], fun kv h => dropDupValues_sub h,
    fun kv h => ?_⟩
  · rw [nodeAttrMap, dictLookup_toDict]
  · rcases dropDupValues_complete [] h with hmem | h'
    · exact absurd hmem (List.not_mem_nil _)
    · exact h'

/-- C2 witness: the amended theorem applied to the counterexample rows and
the first index value. -/
theorem c2_witness :
    dictLookup (nodeAttrMap [ (Val.str "a", Val.str "v"), (Val.str "b", Val.str "v") ])
        (Val.str "a") =
      Option.map (fun kv => kv.2)
        (lastMatch? (fun kv => decide (kv.1 = Val.str "a"))
          (dropDupValues [ (Val.str "a", Val.str "v"), (Val.str "b", Val.str "v") ] [])) ∧
    List.Pairwise (fun a b => a.2 ≠ b.2)
      (dropDupValues [ (Val.str "a", Val.str "v"), (Val.str "b", Val.str "v") ] []) ∧
    (∀ kv ∈ dropDupValues [ (Val.str "a", Val.str "v"), (Val.str "b", Val.str "v") ] [],
      kv ∈ [ (Val.str "a", Val.str "v"), (Val.str "b", Val.str "v") ]) ∧
    (∀ kv ∈ [ (Val.str "a", Val.str "v"), (Val.str "b", Val.str "v") ],
      ∃ k', (k', kv.2) ∈
        dropDupValues [ (Val.str "a", Val.str "v"), (Val.str "b", Val.str "v") ] []) :=
  c2_attr_map_value_dedup [ (Val.str "a", Val.str "v"), (Val.str "b", Val.str "v") ]
    (Val.str "a")

/-- C8 counterexample: the engine's own default arguments have explosion
disabled and self-loops allowed, and a run with all arguments omitted
emits a self-loop edge. -/
theorem c8_counterexample :
    ({} : Config).explode = false ∧ ({} : Config).self_loops = true ∧
    convertToGraph {} 1 0
        [ { src := some "a", tgts := [some "a"], idx := none, attrs := [] } ] =
      Except.ok { nodes := [Val.str "a"],
                  edges := [{ src := Val.str "a", tgt := Val.str "a", weight := some 1 }],
                  nodeAttrs := [] } :=
  ⟨rfl, rfl, rfl⟩

/-- C8 (amended): when convert_to_graph is called directly with the
arguments omitted it runs with directed and weighted true but explosion
DISABLED and self-loops ALLOWED; the claimed defaults (explode on,
self-loops disallowed) are the ones the argparse command line passes when
its flags are omitted. -/
theorem c8_default_flags :
    ({} : Config).directed = true ∧ ({} : Config).weighted = true ∧
    ({} : Config).explode = false ∧ ({} : Config).self_loops = true ∧
    cliDefaultConfig.directed = true ∧ cliDefaultConfig.weighted = true ∧
    cliDefaultConfig.explode = true ∧ cliDefaultConfig.self_loops = false :=
  ⟨rfl, rfl, rfl, rfl, rfl, rfl, rfl, rfl⟩

theorem foldl_explodeTgt_nil : ∀ (l : List Nat),
    l.foldl (fun rs i => explodeTgt i rs) ([] : List Row) = [] := by
  intro l
  induction l with
  | nil => rfl
  | cons i l ih =>
    simp only [List.foldl_cons]
    have h : explodeTgt i [] = [] := rfl
    rw [h, ih]

theorem normalizeRows_nil {cfg : Config} {nT : Nat} : normalizeRows cfg [] nT = [] := by
  unfold normalizeRows
  by_cases h : cfg.explode = true
  · rw [h]
    simp only [if_true, List.map_nil]
    unfold explodeAll
    have h2 : explodeSrc [] = [] := rfl
    rw [h2]
    exact foldl_explodeTgt_nil _
  · rw [Bool.not_eq_true] at h
    rw [h]
    simp only [Bool.false_eq_true, if_false, List.map_nil]

theorem buildE_nil {nT : Nat} : buildE [] nT = [] := by
  unfold buildE
  induction List.range nT with
  | nil => rfl
  | cons i l ih =>
    rw [List.flatMap_cons, ih]
    rfl

theorem filteredE_nil {cfg : Config} {nT : Nat} : filteredE cfg [] nT = [] := by
  unfold filteredE
  rw [buildE_nil]
  cases cfg.self_loops <;> rfl

theorem edgeRowsOf_nil {cfg : Config} : edgeRowsOf cfg [] = .ok [] := by
  unfold edgeRowsOf
  cases cfg.weighted <;> rfl

/-- C9 counterexample: handed one target column and an empty record
sequence, the engine silently returns the empty graph instead of an Input
error. -/
theorem c9_counterexample : convertToGraph {} 1 0 [] = Except.ok (emptyGraph 0) := rfl

/-- C9 (amended): the engine performs no fail-fast input validation: an
empty record sequence silently yields the empty graph, and zero target
columns merely hits the incidental pandas ValueError of concatenating an
empty list of frames; no Input error distinct from Configuration errors
exists. -/
theorem c9_no_fail_fast (cfg : Config) (nT nA : Nat) (rows : List RawRow) (h : 0 < nT) :
    convertToGraph cfg nT nA [] = Except.ok (emptyGraph nA) ∧
    convertToGraph cfg 0 nA rows = Except.error PandasError.noObjectsToConcatenate := by
  constructor
  · have hnT : nT ≠ 0 := Nat.pos_iff_ne_zero.mp h
    unfold convertToGraph
    rw [if_neg hnT, normalizeRows_nil, filteredE_nil, edgeRowsOf_nil]
    show Except.ok _ = Except.ok (emptyGraph nA)
    refine congrArg Except.ok ?_
    unfold emptyGraph
    rw [Graph.mk.injEq]
    refine ⟨rfl, rfl, ?_⟩
    rw [List.eq_replicate_iff]
    constructor
    · rw [List.length_map, List.length_range]
    · intro d hd
      rw [List.mem_map] at hd
      obtain ⟨i, _, hdi⟩ := hd
      rw [← hdi]
      rfl
  · unfold convertToGraph
    rw [if_pos rfl]

/-- C9 witness: the amended theorem at one target column, no attribute
columns, and a one-record input for the zero-column half. -/
theorem c9_witness :
    0 < 1 ∧
    (convertToGraph {} 1 0 [] = Except.ok (emptyGraph 0) ∧
      convertToGraph {} 0 0
          [ { src := some "a", tgts := [some "b"], idx := none, attrs := [] } ] =
        Except.error PandasError.noObjectsToConcatenate) :=
  ⟨Nat.one_pos,
    c9_no_fail_fast {} 1 0
      [ { src := some "a", tgts := [some "b"], idx := none, attrs := [] } ] Nat.one_pos⟩

/-- C4: with self-loops disallowed every candidate pair with equal
endpoints is dropped before weighting and assembly, and no edge of the
resulting graph has equal source and target. -/
theorem c4_no_self_loops (cfg : Config) (nT nA : Nat) (rows : List RawRow) (G : Graph)
    (hsl : cfg.self_loops = false)
    (h : convertToGraph cfg nT nA rows = Except.ok G) :
    (∀ e ∈ G.edges, e.src ≠ e.tgt) ∧
    (∀ p ∈ filteredE cfg (normalizeRows cfg rows nT) nT, p.1 ≠ p.2) := by
  have hpair : ∀ p ∈ filteredE cfg (normalizeRows cfg rows nT) nT, p.1 ≠ p.2 := by
    intro p hp
    obtain ⟨hbE, hneq⟩ := mem_filteredE_no_loops hsl hp
    rw [mem_buildE] at hbE
    obtain ⟨i, _, r, hr, htne, hpe⟩ := hbE
    have h2 : p.2 ≠ Val.na := by
      rw [hpe]
      exact htne
    exact valNeq_ne hneq h2
  refine ⟨?_, hpair⟩
  intro e he
  obtain ⟨_, W, hW, _, hedges, _⟩ := convertToGraph_ok h
  rw [hedges] at he
  have hp := mem_buildGraphEdges_pair he
  rw [edgeRowsOf_ok_fst hW] at hp
  exact hpair _ hp

/-- C4 witness: a run with a self-loop row and a normal row under
disallowed self-loops keeps only the normal edge. -/
theorem c4_witness :
    ({ self_loops := false } : Config).self_loops = false ∧
    convertToGraph { self_loops := false } 1 0
        [ { src := some "a", tgts := [some "a"], idx := none, attrs := [] },
          { src := some "a", tgts := [some "b"], idx := none, attrs := [] } ] =
      Except.ok { nodes := [Val.str "a", Val.str "b"],
                  edges := [{ src := Val.str "a", tgt := Val.str "b", weight := some 1 }],
                  nodeAttrs := [] } ∧
    ((∀ e ∈ ({ nodes := [Val.str "a", Val.str "b"],
               edges := [{ src := Val.str "a", tgt := Val.str "b", weight := some 1 }],
               nodeAttrs := [] } : Graph).edges, e.src ≠ e.tgt) ∧
      (∀ p ∈ filteredE { self_loops := false }
          (normalizeRows { self_loops := false }
            [ { src := some "a", tgts := [some "a"], idx := none, attrs := [] },
              { src := some "a", tgts := [some "b"], idx := none, attrs := [] } ] 1) 1,
        p.1 ≠ p.2)) :=
  ⟨rfl, rfl,
    c4_no_self_loops { self_loops := false } 1 0
      [ { src := some "a", tgts := [some "a"], idx := none, attrs := [] },
        { src := some "a", tgts := [some "b"], idx := none, attrs := [] } ]
      { nodes := [Val.str "a", Val.str "b"],
        edges := [{ src := Val.str "a", tgt := Val.str "b", weight := some 1 }],
        nodeAttrs := [] } rfl rfl⟩

/-- C5: under the default identity extractors a missing source or target
cell never makes the engine raise (the run returns a graph); the Edge
Aggregator discards exactly the candidate pairs whose target cell is the
missing marker, and a row with a missing source but present target still
contributes its candidate pair. -/
theorem c5_missing_values (cfg : Config) (nT nA : Nat) (rows : List RawRow) (rs : List Row)
    (hs : cfg.source_map = fun s => Val.str s) (ht : cfg.target_map = fun s => Val.str s)
    (hnT : 0 < nT) :
    (∃ G, convertToGraph cfg nT nA rows = Except.ok G) ∧
    (∀ p ∈ buildE rs nT, p.2 ≠ Val.na) ∧
    (∀ r ∈ rs, ∀ i, i < nT → r.tgts.getD i Val.na ≠ Val.na →
      (r.src, r.tgts.getD i Val.na) ∈ buildE rs nT) := by
  refine ⟨convertToGraph_ok_of_str hs ht (Nat.pos_iff_ne_zero.mp hnT), ?_, ?_⟩
  · intro p hp
    rw [mem_buildE] at hp
    obtain ⟨i, _, r, _, htne, hpe⟩ := hp
    rw [hpe]
    exact htne
  · intro r hr i hi htne
    rw [mem_buildE]
    exact ⟨i, hi, r, hr, htne, rfl⟩

/-- C5 witness: the theorem at the default configuration, one record with
a missing source cell, and one normalized row with a missing source. -/
theorem c5_witness :
    (({} : Config).source_map = fun s => Val.str s) ∧
    (({} : Config).target_map = fun s => Val.str s) ∧
    0 < 1 ∧
    ((∃ G, convertToGraph {} 1 0
        [ { src := none, tgts := [some "b"], idx := none, attrs := [] } ] =
          Except.ok G) ∧
      (∀ p ∈ buildE [ { src := Val.na, tgts := [Val.str "b"], idx := Val.na, attrs := [] } ] 1,
        p.2 ≠ Val.na) ∧
      (∀ r ∈ [ ({ src := Val.na, tgts := [Val.str "b"], idx := Val.na, attrs := [] } : Row) ],
        ∀ i, i < 1 → r.tgts.getD i Val.na ≠ Val.na →
          (r.src, r.tgts.getD i Val.na) ∈
            buildE [ { src := Val.na, tgts := [Val.str "b"], idx := Val.na, attrs := [] } ] 1)) :=
  ⟨rfl, rfl, Nat.one_pos,
    c5_missing_values {} 1 0
      [ { src := none, tgts := [some "b"], idx := none, attrs := [] } ]
      [ { src := Val.na, tgts := [Val.str "b"], idx := Val.na, attrs := [] } ]
      rfl rfl Nat.one_pos⟩

/-- C1 counterexample: in undirected mode, with the pair in one
orientation once and in the opposite orientation twice, the emitted edge
for that pair carries weight 2 although the pair appears in exactly one
surviving candidate row. -/
theorem c1_counterexample :
    convertToGraph { directed := false } 1 0
        [ { src := some "a", tgts := [some "b"], idx := none, attrs := [] },
          { src := some "b", tgts := [some "a"], idx := none, attrs := [] },
          { src := some "b", tgts := [some "a"], idx := none, attrs := [] } ] =
      Except.ok { nodes := [Val.str "a", Val.str "b"],
                  edges := [{ src := Val.str "a", tgt := Val.str "b", weight := some 2 }],
                  nodeAttrs := [] } ∧
    countPair (filteredE { directed := false }
        (normalizeRows { directed := false }
          [ { src := some "a", tgts := [some "b"], idx := none, attrs := [] },
            { src := some "b", tgts := [some "a"], idx := none, attrs := [] },
            { src := some "b", tgts := [some "a"], idx := none, attrs := [] } ] 1) 1)
      (Val.str "a", Val.str "b") = 1 ∧
    ∀ e ∈ [({ src := Val.str "a", tgt := Val.str "b", weight := some 2 } : Edge)],
      edgePair e = (Val.str "a", Val.str "b") → e.weight ≠ some 1 :=
  ⟨rfl, by decide, by decide⟩

/-- C1 (amended): with weighting enabled and the graph DIRECTED, for every
ordered (source, target) pair appearing in exactly k surviving candidate
rows (post-explosion, post-filter, k positive) the emitted edge for that
exact pair carries weight exactly k, and it is the only edge with that
key; in undirected mode the two orientations share one edge and the
weight is the count of the last orientation written. -/
theorem c1_directed_weights (cfg : Config) (nT nA : Nat) (rows : List RawRow)
    (G : Graph) (s t : Val) (k : Nat)
    (hw : cfg.weighted = true) (hd : cfg.directed = true)
    (h : convertToGraph cfg nT nA rows = Except.ok G)
    (hk : countPair (filteredE cfg (normalizeRows cfg rows nT) nT) (s, t) = k)
    (hpos : 0 < k) :
    (∃ e ∈ G.edges, e.src = s ∧ e.tgt = t ∧ e.weight = some k) ∧
    (∀ e ∈ G.edges, e.src = s → e.tgt = t → e.weight = some k) := by
  obtain ⟨_, W, hW, _, hedges, _⟩ := convertToGraph_ok h
  rw [hd] at hedges
  have hWeq := edgeRowsOf_ok_weighted hw hW
  have hmemE : (s, t) ∈ filteredE cfg (normalizeRows cfg rows nT) nT := by
    apply countPair_pos_iff.mp
    rw [hk]
    exact hpos
  have hrow : ((s, t), some k) ∈ W := by
    rw [hWeq]
    apply List.mem_map.mpr
    refine ⟨(s, t), hmemE, ?_⟩
    rw [hk]
  obtain ⟨b, hb⟩ := lastMatch?_isSome (p := fun r => keyMatch true r.1 (s, t)) hrow
    (keyMatch_refl true (s, t))
  have hbval : b.2 = some k := by
    obtain ⟨hbW, hbmatch⟩ := lastMatch?_mem hb
    rw [hWeq] at hbW
    obtain ⟨p, hpE, hpb⟩ := List.mem_map.mp hbW
    subst hpb
    have hp : p = (s, t) := keyMatch_true_eq hbmatch
    subst hp
    show some (countPair (filteredE cfg (normalizeRows cfg rows nT) nT) (s, t)) = some k
    rw [hk]
  have hspec := buildGraphEdges_spec (d := true) hb
  rw [← hedges] at hspec
  constructor
  · obtain ⟨e, he, hm⟩ := hspec.1
    have he2 : edgePair e = (s, t) := keyMatch_true_eq hm
    refine ⟨e, he, congrArg Prod.fst he2, congrArg Prod.snd he2, ?_⟩
    rw [hspec.2 e he hm, hbval]
  · intro e he hsrc htgt
    have hm : keyMatch true (edgePair e) (s, t) = true := by
      have he2 : edgePair e = (s, t) := by
        unfold edgePair
        rw [hsrc, htgt]
      rw [he2]
      exact keyMatch_refl true (s, t)
    rw [hspec.2 e he hm, hbval]

/-- C1 witness: the amended theorem on a directed default run where the
pair occurs twice. -/
theorem c1_witness :
    (({} : Config).weighted = true ∧ ({} : Config).directed = true ∧
      convertToGraph {} 1 0
          [ { src := some "a", tgts := [some "b"], idx := none, attrs := [] },
            { src := some "a", tgts := [some "b"], idx := none, attrs := [] },
            { src := some "a", tgts := [some "c"], idx := none, attrs := [] } ] =
        Except.ok { nodes := [Val.str "a", Val.str "b", Val.str "c"],
                    edges := [{ src := Val.str "a", tgt := Val.str "b", weight := some 2 },
                              { src := Val.str "a", tgt := Val.str "c", weight := some 1 }],
                    nodeAttrs := [] } ∧
      countPair (filteredE {}
          (normalizeRows {}
            [ { src := some "a", tgts := [some "b"], idx := none, attrs := [] },
              { src := some "a", tgts := [some "b"], idx := none, attrs := [] },
              { src := some "a", tgts := [some "c"], idx := none, attrs := [] } ] 1) 1)
        (Val.str "a", Val.str "b") = 2 ∧ 0 < 2) ∧
    ((∃ e ∈ ({ nodes := [Val.str "a", Val.str "b", Val.str "c"],
               edges := [{ src := Val.str "a", tgt := Val.str "b", weight := some 2 },
                         { src := Val.str "a", tgt := Val.str "c", weight := some 1 }],
               nodeAttrs := [] } : Graph).edges,
        e.src = Val.str "a" ∧ e.tgt = Val.str "b" ∧ e.weight = some 2) ∧
      (∀ e ∈ ({ nodes := [Val.str "a", Val.str "b", Val.str "c"],
                edges := [{ src := Val.str "a", tgt := Val.str "b", weight := some 2 },
                          { src := Val.str "a", tgt := Val.str "c", weight := some 1 }],
                nodeAttrs := [] } : Graph).edges,
        e.src = Val.str "a" → e.tgt = Val.str "b" → e.weight = some 2)) :=
  ⟨⟨rfl, rfl, rfl, by decide, by decide⟩,
    c1_directed_weights {} 1 0
      [ { src := some "a", tgts := [some "b"], idx := none, attrs := [] },
        { src := some "a", tgts := [some "b"], idx := none, attrs := [] },
        { src := some "a", tgts := [some "c"], idx := none, attrs := [] } ]
      { nodes := [Val.str "a", Val.str "b", Val.str "c"],
        edges := [{ src := Val.str "a", tgt := Val.str "b", weight := some 2 },
                  { src := Val.str "a", tgt := Val.str "c", weight := some 1 }],
        nodeAttrs := [] }
      (Val.str "a") (Val.str "b") 2 rfl rfl rfl (by decide) (by decide)⟩

/-- C6: in undirected weighted mode the two orientations of a pair are
counted as distinct keys: the single merged edge carries the count of one
orientation (the last one written), never the sum of the two counts, so
the orientation counts are not merged before weights are computed. -/
theorem c6_undirected_not_merged (cfg : Config) (nT nA : Nat) (rows : List RawRow)
    (G : Graph) (a b : Val) (m n : Nat)
    (hd : cfg.directed = false) (hw : cfg.weighted = true)
    (h : convertToGraph cfg nT nA rows = Except.ok G)
    (hm : countPair (filteredE cfg (normalizeRows cfg rows nT) nT) (a, b) = m)
    (hn : countPair (filteredE cfg (normalizeRows cfg rows nT) nT) (b, a) = n)
    (hm0 : 0 < m) (hn0 : 0 < n) :
    ∃ e ∈ G.edges, keyMatch false (edgePair e) (a, b) = true ∧
      (e.weight = some m ∨ e.weight = some n) ∧
      e.weight ≠ some (m + n) ∧
      ∀ e2 ∈ G.edges, keyMatch false (edgePair e2) (a, b) = true → e2.weight = e.weight := by
  obtain ⟨_, W, hW, _, hedges, _⟩ := convertToGraph_ok h
  rw [hd] at hedges
  have hWeq := edgeRowsOf_ok_weighted hw hW
  have hmemab : (a, b) ∈ filteredE cfg (normalizeRows cfg rows nT) nT := by
    apply countPair_pos_iff.mp
    rw [hm]
    exact hm0
  have hrow : ((a, b), some m) ∈ W := by
    rw [hWeq]
    apply List.mem_map.mpr
    refine ⟨(a, b), hmemab, ?_⟩
    rw [hm]
  obtain ⟨c, hc⟩ := lastMatch?_isSome (p := fun r => keyMatch false r.1 (a, b)) hrow
    (keyMatch_refl false (a, b))
  have hcv : c.2 = some m ∨ c.2 = some n := by
    obtain ⟨hcW, hcmatch⟩ := lastMatch?_mem hc
    rw [hWeq] at hcW
    obtain ⟨p, hpE, hpc⟩ := List.mem_map.mp hcW
    subst hpc
    rcases keyMatch_cases hcmatch with hcase | hcase
    · left
      have hp : p = (a, b) := hcase
      subst hp
      show some (countPair (filteredE cfg (normalizeRows cfg rows nT) nT) (a, b)) = some m
      rw [hm]
    · right
      have hp : p = (b, a) := hcase
      subst hp
      show some (countPair (filteredE cfg (normalizeRows cfg rows nT) nT) (b, a)) = some n
      rw [hn]
  have hspec := buildGraphEdges_spec (d := false) hc
  rw [← hedges] at hspec
  obtain ⟨e, he, hmch⟩ := hspec.1
  have hweq : e.weight = c.2 := hspec.2 e he hmch
  refine ⟨e, he, hmch, ?_, ?_, ?_⟩
  · rw [hweq]
    exact hcv
  · rw [hweq]
    rcases hcv with hcv | hcv <;> rw [hcv] <;> intro hcon <;> injection hcon with hcon <;> omega
  · intro e2 he2 hm2
    rw [hspec.2 e2 he2 hm2, hweq]

/-- C6 witness: a logical undirected edge discovered once in each
orientation keeps weight 1, not 2. -/
theorem c6_witness :
    (({ directed := false } : Config).directed = false ∧
      ({ directed := false } : Config).weighted = true ∧
      convertToGraph { directed := false } 1 0
          [ { src := some "a", tgts := [some "b"], idx := none, attrs := [] },
            { src := some "b", tgts := [some "a"], idx := none, attrs := [] } ] =
        Except.ok { nodes := [Val.str "a", Val.str "b"],
                    edges := [{ src := Val.str "a", tgt := Val.str "b", weight := some 1 }],
                    nodeAttrs := [] } ∧
      countPair (filteredE { directed := false }
          (normalizeRows { directed := false }
            [ { src := some "a", tgts := [some "b"], idx := none, attrs := [] },
              { src := some "b", tgts := [some "a"], idx := none, attrs := [] } ] 1) 1)
        (Val.str "a", Val.str "b") = 1 ∧
      countPair (filteredE { directed := false }
          (normalizeRows { directed := false }
            [ { src := some "a", tgts := [some "b"], idx := none, attrs := [] },
              { src := some "b", tgts := [some "a"], idx := none, attrs := [] } ] 1) 1)
        (Val.str "b", Val.str "a") = 1 ∧ 0 < 1) ∧
    (∃ e ∈ ({ nodes := [Val.str "a", Val.str "b"],
              edges := [{ src := Val.str "a", tgt := Val.str "b", weight := some 1 }],
              nodeAttrs := [] } : Graph).edges,
      keyMatch false (edgePair e) (Val.str "a", Val.str "b") = true ∧
        (e.weight = some 1 ∨ e.weight = some 1) ∧
        e.weight ≠ some (1 + 1) ∧
        ∀ e2 ∈ ({ nodes := [Val.str "a", Val.str "b"],
                  edges := [{ src := Val.str "a", tgt := Val.str "b", weight := some 1 }],
                  nodeAttrs := [] } : Graph).edges,
          keyMatch false (edgePair e2) (Val.str "a", Val.str "b") = true →
            e2.weight = e.weight) :=
  ⟨⟨rfl, rfl, rfl, by decide, by decide, by decide⟩,
    c6_undirected_not_merged { directed := false } 1 0
      [ { src := some "a", tgts := [some "b"], idx := none, attrs := [] },
        { src := some "b", tgts := [some "a"], idx := none, attrs := [] } ]
      { nodes := [Val.str "a", Val.str "b"],
        edges := [{ src := Val.str "a", tgt := Val.str "b", weight := some 1 }],
        nodeAttrs := [] }
      (Val.str "a") (Val.str "b") 1 1 rfl rfl rfl (by decide) (by decide)
      (by decide) (by decide)⟩

/-- C7: the node set of the returned graph is exactly the set of edge
endpoints, and every retained node-attribute entry is keyed by a node of
the graph; attribute entries keyed by an identifier that is not an edge
endpoint are dropped without creating a node. -/
theorem c7_nodes_edge_closure (cfg : Config) (nT nA : Nat) (rows : List RawRow)
    (G : Graph) (v : Val)
    (h : convertToGraph cfg nT nA rows = Except.ok G) :
    (v ∈ G.nodes ↔ ∃ e ∈ G.edges, v = e.src ∨ v = e.tgt) ∧
    (∀ dct ∈ G.nodeAttrs, ∀ kv ∈ dct, kv.1 ∈ G.nodes) := by
  obtain ⟨_, W, hW, hnodes, hedges, hattrs⟩ := convertToGraph_ok h
  constructor
  · constructor
    · intro hv
      rw [hnodes, mem_graphNodesOf] at hv
      obtain ⟨p, hp, hv⟩ := hv
      rw [List.mem_map] at hp
      obtain ⟨r0, hr0, hrp⟩ := hp
      obtain ⟨e, he, hmatch⟩ := exists_edge_of_mem_rows (d := cfg.directed) hr0
      rw [← hedges] at he
      refine ⟨e, he, ?_⟩
      rw [hrp] at hmatch
      rcases keyMatch_cases hmatch with hc | hc
      · rcases hv with hv | hv
        · left
          rw [hv, ← hc]
          rfl
        · right
          rw [hv, ← hc]
          rfl
      · rcases hv with hv | hv
        · right
          rw [hv]
          exact (congrArg Prod.snd hc).symm
        · left
          rw [hv]
          exact (congrArg Prod.fst hc).symm
    · rintro ⟨e, he, hv⟩
      rw [hedges] at he
      have hp := mem_buildGraphEdges_pair he
      rw [hnodes, mem_graphNodesOf]
      exact ⟨edgePair e, hp, hv⟩
  · intro dct hdct kv hkv
    rw [hattrs] at hdct
    rw [List.mem_map] at hdct
    obtain ⟨i, _, hdi⟩ := hdct
    rw [← hdi] at hkv
    have h2 := (List.mem_filter.mp hkv).2
    rw [hnodes]
    exact of_decide_eq_true h2

/-- C7 witness: a run with a configured node-index column whose value is
not an edge endpoint: the node set is the two edge endpoints and the
orphan attribute entry is dropped, leaving an empty attribute dict. -/
theorem c7_witness :
    convertToGraph { node_index_given := true } 1 1
        [ { src := some "a", tgts := [some "b"], idx := some "q", attrs := [some "x"] } ] =
      Except.ok { nodes := [Val.str "a", Val.str "b"],
                  edges := [{ src := Val.str "a", tgt := Val.str "b", weight := some 1 }],
                  nodeAttrs := [[]] } ∧
    ((Val.str "a" ∈ ({ nodes := [Val.str "a", Val.str "b"],
                       edges := [{ src := Val.str "a", tgt := Val.str "b", weight := some 1 }],
                       nodeAttrs := [[]] } : Graph).nodes ↔
        ∃ e ∈ ({ nodes := [Val.str "a", Val.str "b"],
                 edges := [{ src := Val.str "a", tgt := Val.str "b", weight := some 1 }],
                 nodeAttrs := [[]] } : Graph).edges,
          Val.str "a" = e.src ∨ Val.str "a" = e.tgt) ∧
      (∀ dct ∈ ({ nodes := [Val.str "a", Val.str "b"],
                  edges := [{ src := Val.str "a", tgt := Val.str "b", weight := some 1 }],
                  nodeAttrs := [[]] } : Graph).nodeAttrs,
        ∀ kv ∈ dct, kv.1 ∈ ({ nodes := [Val.str "a", Val.str "b"],
                              edges := [{ src := Val.str "a", tgt := Val.str "b",
                                          weight := some 1 }],
                              nodeAttrs := [[]] } : Graph).nodes)) :=
  ⟨rfl,
    c7_nodes_edge_closure { node_index_given := true } 1 1
      [ { src := some "a", tgts := [some "b"], idx := some "q", attrs := [some "x"] } ]
      { nodes := [Val.str "a", Val.str "b"],
        edges := [{ src := Val.str "a", tgt := Val.str "b", weight := some 1 }],
        nodeAttrs := [[]] }
      (Val.str "a") rfl⟩

end Csv2Graph
